import Mathlib

set_option maxRecDepth 8000

/-!
Verification development for the clear-voice-studio repository.

The development shallowly embeds the algorithmic core of the repository:

* `src/lib/correctionEngine.ts` — the rule-based dictation correction
  pipeline `applyCorrections`, embedded at the character-list level.  Each
  JavaScript regex pass is embedded as a deterministic left-to-right
  scanner (`gscanF`) driven by a matcher for the concrete pattern.  For
  every pattern used by the source, greedy matching admits no backtracking
  (justified at each matcher below), so the scanners are faithful to the
  JS `String.replace` / `String.matchAll` semantics for these patterns.
  Case-insensitive matching (`/i`) is modelled for the ASCII range, which
  covers every pattern literal in the source.
* `src/hooks/useTranscribe.ts` — `normalizeAudio`, with audio samples
  modelled as exact rationals (ℚ) in place of IEEE floats; the `addLog`
  error call in the silent branch is modelled as a boolean flag.
* the `complete`-event transcript merge of both transcription hooks in the
  repository (the blob-based hook in `src/hooks/useTranscribe.ts` and the
  streaming variant), and the streaming variant's chunk dispatch loop.
* `src/worker.ts` — the worker message handler, with JS `try`/`catch`
  modelled by `Except` outcomes supplied by an environment.
-/

/-! ## Character classes (ASCII model of JS regex classes) -/

/-- JS regex `\w`, i.e. `[A-Za-z0-9_]`, via ASCII code points. -/
def isWordChar (c : Char) : Bool :=
  (48 ≤ c.toNat && c.toNat ≤ 57) || (65 ≤ c.toNat && c.toNat ≤ 90) ||
    (97 ≤ c.toNat && c.toNat ≤ 122) || c.toNat == 95

/-- JS regex `\s`, restricted to the ASCII whitespace characters
(space, tab, line feed, vertical tab, form feed, carriage return). -/
def isWsChar (c : Char) : Bool :=
  c == ' ' || c == '\t' || c == '\n' || c == '\x0b' || c == '\x0c' || c == '\r'

/-- The sentence-terminal characters of the JS class `[.!?]`. -/
def isTermChar (c : Char) : Bool :=
  c == '.' || c == '!' || c == '?'

/-- ASCII uppercase letter test, via code points. -/
def isAsciiUpper (c : Char) : Bool :=
  65 ≤ c.toNat && c.toNat ≤ 90

/-- ASCII lowercase letter test: the JS class `[a-z]`. -/
def isAsciiLower (c : Char) : Bool :=
  97 ≤ c.toNat && c.toNat ≤ 122

/-- ASCII `toUpperCase` on a single character. -/
def toUpperChar (c : Char) : Char :=
  if isAsciiLower c then Char.ofNat (c.toNat - 32) else c

/-- ASCII-range case-insensitive character equality, modelling the `/i`
regex flag for the ASCII pattern literals used by the source. -/
def eqCI (a b : Char) : Bool :=
  a == b || (isAsciiUpper a && a.toNat + 32 == b.toNat) ||
    (isAsciiUpper b && b.toNat + 32 == a.toNat)

/-- Case-insensitive prefix test: does `s` start with the pattern `p`? -/
def startsWithCI : List Char → List Char → Bool
  | [], _ => true
  | _ :: _, [] => false
  | p :: ps, c :: cs => eqCI c p && startsWithCI ps cs

/-- Length of the longest prefix of `s` whose characters satisfy `p`. -/
def takeRunLen (p : Char → Bool) : List Char → Nat
  | [] => 0
  | c :: cs => if p c then takeRunLen p cs + 1 else 0

/-- JS `String.prototype.trim` on a character list. -/
def trimChars (s : List Char) : List Char :=
  ((s.dropWhile isWsChar).reverse.dropWhile isWsChar).reverse

/-- Word boundary `\b` immediately before a word character, given the
previous character of the scanned string (`none` at the start). -/
def boundaryBefore (prev : Option Char) : Bool :=
  match prev with
  | none => true
  | some p => !isWordChar p

/-- Word boundary `\b` immediately after a word character, given the rest
of the scanned string. -/
def wordBoundaryAfter (rest : List Char) : Bool :=
  match rest with
  | [] => true
  | c :: _ => !isWordChar c

/-! ## Data model of the correction engine (`correctionEngine.ts`) -/

/-- The `type` field of a `Change` in `correctionEngine.ts`. -/
inductive ChangeType
  | punctuation
  | filler
  | casing
  | spacing
  | boundary
deriving DecidableEq, Repr

/-- The `Change` interface of `correctionEngine.ts`. -/
structure Change where
  type : ChangeType
  description : String
  position : Nat
deriving DecidableEq, Repr

/-- The `CorrectionResult` interface of `correctionEngine.ts`. -/
structure CorrectionResult where
  original : String
  corrected : String
  changes : List Change
deriving DecidableEq, Repr

/-! ## Generic global-replace scanner

A JS global regex replace scans the subject left to right; at each
position it either matches (consuming at least one character, emitting a
replacement, and for our embedding possibly recording `Change`s) and
resumes after the match, or moves one character right.  Matching always
happens against the original subject string.  `gscanF` implements this
with explicit fuel so that it is structurally recursive (and hence
kernel-computable); one unit of fuel is spent per step and at least one
character is consumed per step, so fuel equal to the subject length never
runs out. -/

/-- A matcher: given the current position, the previous character of the
subject (for `\b` tests) and the remaining subject, return `none` for no
match or `some (n, repl, chs)` to consume `n` characters (`n ≥ 1`),
output `repl`, and record the changes `chs`. -/
abbrev Matcher := Nat → Option Char → List Char → Option (Nat × List Char × List Change)

/-- Fuelled global-replace scan.  On fuel exhaustion the remaining subject
is returned unchanged (never reached when fuel ≥ subject length). -/
def gscanF (m : Matcher) : Nat → Nat → Option Char → List Char → List Char × List Change
  | 0, _, _, s => (s, [])
  | _ + 1, _, _, [] => ([], [])
  | fuel + 1, pos, prev, c :: cs =>
    match m pos prev (c :: cs) with
    | some (n + 1, repl, chs) =>
      let r := gscanF m fuel (pos + n + 1) (c :: cs)[n]? ((c :: cs).drop (n + 1))
      (repl ++ r.1, chs ++ r.2)
    | _ =>
      let r := gscanF m fuel (pos + 1) (some c) cs
      (c :: r.1, r.2)

/-- Run a global replace over a whole subject string. -/
def runScan (m : Matcher) (s : List Char) : List Char × List Change :=
  gscanF m s.length 0 none s

/-- Run a global replace, keeping only the rewritten string. -/
def runScanStr (m : Matcher) (s : List Char) : List Char :=
  (runScan m s).1

/-- Thread a global replace through a (string, accumulated changes) pair,
appending the newly recorded changes (the `changes.push` pattern of the
source). -/
def runStage (m : Matcher) (acc : List Char × List Change) : List Char × List Change :=
  let r := runScan m acc.1
  (r.1, acc.2 ++ r.2)

/-! ## Step 1: filler-word removal (`FILLER_PATTERNS`)

For each of the seven patterns the source first records one filler
`Change` per match (via `matchAll`, position = match index in the current
intermediate string, description quoting the trimmed match), then deletes
every match (`replace(pattern, '')`).  Both traversals find the same
matches, so one scan that records the change and replaces with `""` is
equivalent. -/

/-- Description of a filler removal: `Removed filler: "<trimmed match>"`. -/
def fillerDesc (matched : List Char) : String :=
  String.mk ("Removed filler: \"".toList ++ trimChars matched ++ "\"".toList)

/-- Body of an alternative `c1 c2+` (e.g. `um+`), case-insensitively and
greedily; greediness is exact because nothing follows the `+` in the
pattern. Returns the number of characters matched. -/
def repLetterBody (c1 c2 : Char) : List Char → Option Nat
  | a :: b :: rest =>
    if eqCI a c1 && eqCI b c2 then some (2 + takeRunLen (fun x => eqCI x c2) rest)
    else none
  | _ => none

/-- Body of a pattern `word,?\s` (case-insensitive).  The optional comma
is tried greedily first, exactly as JS backtracking would: if a comma is
present but not followed by whitespace, the comma-less parse needs `\s`
to match the comma itself and also fails. -/
def phraseBody (w : List Char) (s : List Char) : Option Nat :=
  if startsWithCI w s then
    match s.drop w.length with
    | ',' :: c :: _ => if isWsChar c then some (w.length + 2) else none
    | c :: _ => if isWsChar c then some (w.length + 1) else none
    | [] => none
  else none

/-- Body of a pattern `word\s` (case-insensitive, no optional comma). -/
def spacedPhraseBody (w : List Char) (s : List Char) : Option Nat :=
  if startsWithCI w s then
    match s.drop w.length with
    | c :: _ => if isWsChar c then some (w.length + 1) else none
    | [] => none
  else none

/-- Body of `/(um+|uh+|er+|ah+|like,?\s)/i`, alternatives in source order. -/
def filler1Body (s : List Char) : Option Nat :=
  repLetterBody 'u' 'm' s <|> repLetterBody 'u' 'h' s <|> repLetterBody 'e' 'r' s <|>
    repLetterBody 'a' 'h' s <|> phraseBody "like".toList s

/-- Body of `/(sort of|kind of)\s/i`, alternatives in source order. -/
def filler6Body (s : List Char) : Option Nat :=
  spacedPhraseBody "sort of".toList s <|> spacedPhraseBody "kind of".toList s

/-- Wrap a filler body as a matcher: require the leading `\b` (every
alternative starts with a letter, so this is `prev` not being a word
character), delete the match, and record the filler change. -/
def mkFillerMatcher (body : List Char → Option Nat) : Matcher :=
  fun pos prev s =>
    if boundaryBefore prev then
      match body s with
      | some n => some (n, [], [⟨ChangeType.filler, fillerDesc (s.take n), pos⟩])
      | none => none
    else none

/-- The seven filler matchers, in the order of `FILLER_PATTERNS`. -/
def FILLER_MATCHERS : List Matcher :=
  [mkFillerMatcher filler1Body,
   mkFillerMatcher (phraseBody "you know".toList),
   mkFillerMatcher (phraseBody "basically".toList),
   mkFillerMatcher (phraseBody "literally".toList),
   mkFillerMatcher (phraseBody "actually".toList),
   mkFillerMatcher filler6Body,
   mkFillerMatcher (phraseBody "I mean".toList)]

/-! ## Step 2: collapse runs of whitespace (`/\s{2,}/g` → `' '`) -/

/-- Matcher for `/\s{2,}/g` replaced by a single space, recording one
spacing change per collapsed run.  `{2,}` is greedy, so a run is consumed
whole. -/
def multiSpaceMatcher : Matcher :=
  fun pos _ s =>
    let n := takeRunLen isWsChar s
    if 2 ≤ n then some (n, [' '], [⟨ChangeType.spacing, "Fixed multiple spaces", pos⟩])
    else none

/-! ## Step 3: sentence-boundary inference (`inferSentenceBoundaries`) -/

/-- The `BOUNDARY_TRIGGERS` list of the source, in order. -/
def BOUNDARY_TRIGGERS : List (List Char) :=
  ["however".toList, "therefore".toList, "moreover".toList, "furthermore".toList,
   "additionally".toList, "consequently".toList, "nevertheless".toList,
   "meanwhile".toList, "subsequently".toList, "in addition".toList,
   "as a result".toList, "on the other hand".toList, "in conclusion".toList,
   "first".toList, "second".toList, "third".toList, "finally".toList,
   "next".toList, "then".toList, "also".toList, "but".toList,
   "and then".toList, "so then".toList, "after that".toList]

/-- Uppercase the first character (`word.charAt(0).toUpperCase() + word.slice(1)`). -/
def upperFirst : List Char → List Char
  | [] => []
  | c :: cs => toUpperChar c :: cs

/-- Matcher for one trigger pass ``/(\s)(trigger)\s/gi`` with the source's
replacement callback: if the character before the match exists and is not
in `[.!?,;:]`, replace by `". Word "` and record a boundary change at the
match offset; otherwise return the match unchanged (still consuming it,
as JS does after a match). -/
def triggerMatcher (trig : List Char) : Matcher :=
  fun pos prev s =>
    match s with
    | w :: rest =>
      if isWsChar w && startsWithCI trig rest then
        match rest.drop trig.length with
        | w2 :: _ =>
          if isWsChar w2 then
            let word := rest.take trig.length
            let n := trig.length + 2
            match prev with
            | some p =>
              if !(p == '.' || p == '!' || p == '?' || p == ',' || p == ';' || p == ':') then
                some (n, ('.' :: ' ' :: upperFirst word) ++ [' '],
                  [⟨ChangeType.boundary,
                    String.mk ("Added period before \"".toList ++ word ++ "\"".toList), pos⟩])
              else some (n, w :: word ++ [w2], [])
            | none => some (n, w :: word ++ [w2], [])
          else none
        | [] => none
      else none
    | [] => none

/-- JS `split(/[.!?]/)` on a character list. -/
def splitOnTerminals (s : List Char) : List (List Char) :=
  s.foldr
    (fun c acc =>
      if isTermChar c then [] :: acc
      else
        match acc with
        | a :: r => (c :: a) :: r
        | [] => [[c]])
    [[]]

/-- The advisory long-segment changes: one boundary change per
punctuation-delimited segment longer than 100 characters, with the
segment index as the recorded position (as in the source). -/
def longSegmentChanges (s : List Char) : List Change :=
  (splitOnTerminals s).enum.filterMap
    (fun p =>
      if 100 < p.2.length then
        some ⟨ChangeType.boundary, "Long sentence detected - may need manual review", p.1⟩
      else none)

/-! ## Step 4: capitalize after a period (`/\.\s+([a-z])/g`)

The callback records a change whose position is the enclosing function's
`position` variable, which is initialised to 0 and never updated, so
every change of this step carries position 0.  `\s+` is greedy and
cannot backtrack: a shorter whitespace run leaves a whitespace character
where `[a-z]` must match. -/

/-- Matcher for `/\.\s+([a-z])/g` with replacement `". X"`. -/
def periodCaseMatcher : Matcher :=
  fun _ _ s =>
    match s with
    | '.' :: rest =>
      let n := takeRunLen isWsChar rest
      if 1 ≤ n then
        match rest.drop n with
        | c :: _ =>
          if isAsciiLower c then
            some (1 + n + 1, ['.', ' ', toUpperChar c],
              [⟨ChangeType.casing, "Capitalized after period", 0⟩])
          else none
        | [] => none
      else none
    | _ => none

/-! ## Steps 5–7 -/

/-- Step 5: capitalize the first letter when it matches `/^[a-z]/`. -/
def stage5 (acc : List Char × List Change) : List Char × List Change :=
  match acc.1 with
  | c :: cs =>
    if isAsciiLower c then
      (toUpperChar c :: cs, acc.2 ++ [⟨ChangeType.casing, "Capitalized first letter", 0⟩])
    else acc
  | [] => acc

/-- Step 6 matcher: `/\bi\b/g` → `"I"` (no `/i` flag, so only lowercase
`i`); no change is recorded. -/
def pronounIMatcher : Matcher :=
  fun _ prev s =>
    match s with
    | 'i' :: rest =>
      if boundaryBefore prev && wordBoundaryAfter rest then some (1, ['I'], [])
      else none
    | _ => none

/-- Does the trimmed string end in `.`, `!` or `?` (the step-7 test
`/[.!?]$/.test(result.trim())`)? -/
def endsTermAfterTrim (s : List Char) : Bool :=
  match (trimChars s).getLast? with
  | some c => isTermChar c
  | none => false

/-- Step 7: append a terminal period when missing, recording a
punctuation change whose position is the length of the string before
trimming. -/
def stage7 (s : List Char) : List Char × List Change :=
  if 0 < s.length && !endsTermAfterTrim s then
    (trimChars s ++ ['.'], [⟨ChangeType.punctuation, "Added ending period", s.length⟩])
  else (s, [])

/-! ## Step 8: `fixCommonArtifacts` -/

/-- Matcher for a whole-word case-insensitive replacement such as
`/\bgonna\b/gi` → `"going to"` (the replacement is a fixed lowercase
string). -/
def wordReplaceMatcher (w target : List Char) : Matcher :=
  fun _ prev s =>
    if boundaryBefore prev && startsWithCI w s && wordBoundaryAfter (s.drop w.length) then
      some (w.length, target, [])
    else none

/-- Matcher for `/\b(\w+)\s+\1\b/gi` → `$1`.  Greediness is exact: a
shorter `\w+` leaves a word character where `\s+` must match, and a
shorter `\s+` leaves a whitespace character where the backreference
(which starts with a word character) must match, so both runs are forced
maximal and no backtracking can occur. -/
def repeatedWordMatcher : Matcher :=
  fun _ prev s =>
    if boundaryBefore prev then
      let wl := takeRunLen isWordChar s
      if 1 ≤ wl then
        let w := s.take wl
        let rest1 := s.drop wl
        let sl := takeRunLen isWsChar rest1
        if 1 ≤ sl then
          let rest2 := rest1.drop sl
          if startsWithCI w rest2 && wordBoundaryAfter (rest2.drop wl) then
            some (wl + sl + wl, w, [])
          else none
        else none
      else none
    else none

/-- Matcher for `/\s+([,.])/g` → `$1` (whitespace before `,`/`.` removed).
`\s+` is forced maximal: a shorter run leaves whitespace where `[,.]`
must match. -/
def wsBeforePunctMatcher : Matcher :=
  fun _ _ s =>
    let n := takeRunLen isWsChar s
    if 1 ≤ n then
      match s.drop n with
      | p :: _ => if p == ',' || p == '.' then some (n + 1, [p], []) else none
      | [] => none
    else none

/-- Matcher for `/([,.])\s{2,}/g` → `"$1 "`. -/
def punctWsMatcher : Matcher :=
  fun _ _ s =>
    match s with
    | p :: rest =>
      if p == ',' || p == '.' then
        let n := takeRunLen isWsChar rest
        if 2 ≤ n then some (1 + n, [p, ' '], []) else none
      else none
    | [] => none

/-- `fixCommonArtifacts` of the source: the six global replaces in order.
It records no changes (the source passes `changes` but never pushes). -/
def fixCommonArtifacts (s : List Char) : List Char :=
  let s1 := runScanStr (wordReplaceMatcher "gonna".toList "going to".toList) s
  let s2 := runScanStr (wordReplaceMatcher "wanna".toList "want to".toList) s1
  let s3 := runScanStr (wordReplaceMatcher "gotta".toList "got to".toList) s2
  let s4 := runScanStr repeatedWordMatcher s3
  let s5 := runScanStr wsBeforePunctMatcher s4
  runScanStr punctWsMatcher s5

/-! ## The pipeline `applyCorrections` -/

/-- The intermediate result after step 1 (filler removal). -/
def resultAfterStep1 (text : String) : List Char × List Change :=
  FILLER_MATCHERS.foldl (fun acc mm => runStage mm acc) (text.toList, [])

/-- After step 2 (whitespace collapse). -/
def resultAfterStep2 (text : String) : List Char × List Change :=
  runStage multiSpaceMatcher (resultAfterStep1 text)

/-- After step 3 (`inferSentenceBoundaries`): the 24 trigger passes in
order, then the advisory long-segment changes computed on the resulting
string.  (The `starterPattern` of the source is defined but never
applied, so it does not appear here.) -/
def resultAfterStep3 (text : String) : List Char × List Change :=
  let r := BOUNDARY_TRIGGERS.foldl (fun acc trig => runStage (triggerMatcher trig) acc)
    (resultAfterStep2 text)
  (r.1, r.2 ++ longSegmentChanges r.1)

/-- After step 4 (capitalize after periods). -/
def resultAfterStep4 (text : String) : List Char × List Change :=
  runStage periodCaseMatcher (resultAfterStep3 text)

/-- After step 5 (capitalize first letter). -/
def resultAfterStep5 (text : String) : List Char × List Change :=
  stage5 (resultAfterStep4 text)

/-- After step 6 (standalone `i` → `I`). -/
def resultAfterStep6 (text : String) : List Char × List Change :=
  runStage pronounIMatcher (resultAfterStep5 text)

/-- `applyCorrections` of `correctionEngine.ts`.  The `similarities`
parameter is accepted, as in the source, and never read (samples are
modelled as exact rationals).  The corrected string is the trimmed result
of step 8 applied to the step-7 output. -/
def applyCorrections (text : String) (similarities : List ℚ) : CorrectionResult :=
  let a6 := resultAfterStep6 text
  let a7 := stage7 a6.1
  let s8 := fixCommonArtifacts a7.1
  { original := text, corrected := String.mk (trimChars s8), changes := a6.2 ++ a7.2 }

/-! ## `normalizeAudio` (`src/hooks/useTranscribe.ts`)

Audio samples are modelled as exact rationals in place of IEEE floats.
In exact arithmetic `Number.isFinite(peak)` always holds, so the source's
`!Number.isFinite(peak) || peak === 0` test reduces to `peak = 0`.  The
RMS value is computed by the source only for a log line and is omitted
(ℚ has no square root).  The `addLog('Audio peak is zero or invalid.',
'error')` call of the early-return branch is modelled by the
`flaggedSilent` field. -/

/-- Return value of `normalizeAudio`, plus the silent-error flag. -/
structure NormalizeResult where
  normalizedData : List ℚ
  peak : ℚ
  gain : ℚ
  flaggedSilent : Bool
deriving DecidableEq, Repr

/-- The peak loop of `normalizeAudio`: `if (abs > peak) peak = abs`
starting from `peak = 0`. -/
def peakOf (l : List ℚ) : ℚ :=
  l.foldl (fun p x => max p |x|) 0

/-- `normalizeAudio` of `src/hooks/useTranscribe.ts`. -/
def normalizeAudio (audioData : List ℚ) : NormalizeResult :=
  let peak := peakOf audioData
  let targetLevel : ℚ := 0.95
  if peak = 0 then
    { normalizedData := audioData, peak := peak, gain := 1, flaggedSilent := true }
  else
    let gain := targetLevel / peak
    { normalizedData := audioData.map (fun x => x * gain), peak := peak, gain := gain,
      flaggedSilent := false }

/-! ## The `complete`-event transcript merge of the transcription hooks

`WorkerData` models the payload shapes the handlers distinguish:
an object whose `text` property is truthy (`objWithText`, with the
empty string separated out because `data.text` is falsy for `""`),
an array of segments each carrying a `text`, or anything else. -/

/-- Payload of a worker `complete` message as seen by the hooks. -/
inductive WorkerData
  | objWithText (text : String)
  | segments (texts : List String)
  | otherPayload
deriving DecidableEq, Repr

/-- JS `trim` on a `String`. -/
def trimStr (s : String) : String :=
  String.mk (trimChars s.data)

/-- The `complete` branch of the blob-based hook
(`src/hooks/useTranscribe.ts`, worker `onmessage`): append the extracted
text to the previous transcription with a single separating space when
the previous transcription is non-empty. -/
def handleCompleteMain (prev : String) (d : WorkerData) : String :=
  match d with
  | .objWithText t =>
    if t = "" then prev
    else prev ++ (if prev = "" then "" else " ") ++ trimStr t
  | .segments texts =>
    prev ++ (if prev = "" then "" else " ") ++ trimStr (String.intercalate " " texts)
  | .otherPayload => prev

/-- The `complete` branch of the streaming hook variant: the extracted
text replaces the transcription (`setTranscription(data.text.trim())`)
instead of being appended. -/
def handleCompletePart002 (prev : String) (d : WorkerData) : String :=
  match d with
  | .objWithText t => if t = "" then prev else trimStr t
  | .segments texts => trimStr (String.intercalate " " texts)
  | .otherPayload => prev

/-! ## Chunk dispatch of the streaming hook

The streaming hook's `onaudioprocess` appends each incoming sample block
to a buffer; when the buffer reaches `sampleRate * CHUNK_DURATION_SEC`
(4 seconds) samples it is handed to `normalizeAndSendAudio`, which posts
a `transcribe` message to the worker immediately — it neither consults
any in-flight state nor holds the chunk in a queue.  The dispatch-level
behaviour is modelled as a state machine over buffer length and request
counts; `outstanding` counts dispatched requests for which no `complete`
or `error` has yet been received (ground truth of the system, not a
variable of the code). -/

/-- Dispatch-level state of a streaming recording session. -/
structure StreamState where
  bufLen : Nat
  outstanding : Nat
  dispatched : Nat
deriving DecidableEq, Repr

/-- Events relevant to dispatch: an `onaudioprocess` block of `samples`
input samples, or a worker `complete`/`error` for the oldest in-flight
request. -/
inductive StreamEvent
  | frame (samples : Nat)
  | completeEvt
  | errorEvt
deriving DecidableEq, Repr

/-- One event step.  A frame is appended to the buffer; if the buffer
reaches `sampleRate * 4` samples it is flushed and a `transcribe`
request is posted at once (no queue, no wait for the previous request). -/
def streamStep (sampleRate : Nat) (s : StreamState) : StreamEvent → StreamState
  | .frame n =>
    let b := s.bufLen + n
    if sampleRate * 4 ≤ b then
      { bufLen := 0, outstanding := s.outstanding + 1, dispatched := s.dispatched + 1 }
    else { s with bufLen := b }
  | .completeEvt => { s with outstanding := s.outstanding - 1 }
  | .errorEvt => { s with outstanding := s.outstanding - 1 }

/-- Run a session, with the model loaded, from the initial empty state. -/
def runStream (sampleRate : Nat) (evs : List StreamEvent) : StreamState :=
  evs.foldl (streamStep sampleRate) ⟨0, 0, 0⟩

/-! ## The worker message handler (`src/worker.ts`)

The handler wraps each branch in `try`/`catch` and converts every caught
error into a posted `{type: 'error', data: reason}` message.  The
fallible external calls (loading the pipeline, running transcription) are
modelled as `Except` outcomes supplied by an environment; the handler is
a total function into the list of posted messages, which is exactly the
no-exception-escapes property by construction. -/

/-- Messages received by the worker (`event.data`): `configure`,
`transcribe` with its (possibly missing) audio, or anything else (the
handler ignores other types). -/
inductive WorkerMsg
  | configure
  | transcribe (audio : Option (List ℚ))
  | otherMsg
deriving DecidableEq, Repr

/-- Outcomes of the external calls inside the `try` blocks:
`loadOutcome` for `PipelineSingleton.getInstance` (with the download
progress payloads its callback reports while loading), and
`transcribeOutcome` for running the transcriber on the audio. -/
structure WorkerEnv where
  downloadEvents : List Nat
  loadOutcome : Except String Unit
  transcribeOutcome : Except String WorkerData

/-- Messages posted back to the main thread. -/
inductive PostedMsg
  | download (progress : Nat)
  | ready
  | complete (data : WorkerData)
  | error (reason : String)
deriving DecidableEq, Repr

/-- The worker's `message` listener. -/
def handleWorkerMessage (env : WorkerEnv) : WorkerMsg → List PostedMsg
  | .configure =>
    (env.downloadEvents.map .download) ++
      (match env.loadOutcome with
       | .ok _ => [.ready]
       | .error e => [.error e])
  | .transcribe none => [.error "No audio data provided"]
  | .transcribe (some _) =>
    match env.loadOutcome with
    | .error e => [.error e]
    | .ok _ =>
      match env.transcribeOutcome with
      | .ok out => [.complete out]
      | .error e => [.error e]
  | .otherMsg => []

/-! ## Proof-support definitions -/

/-- The last non-whitespace character of a string, if any. -/
def lastNonWs (s : List Char) : Option Char :=
  (s.filter (fun c => !isWsChar c)).getLast?

/-- Auxiliary scan: does the string contain, at any position, a maximal
word run immediately followed by whitespace and an identical copy of the
run ending at a word boundary (a word immediately followed by a second
copy of the same word)? -/
def containsRepeatedWordAux : Option Char → List Char → Bool
  | _, [] => false
  | prev, c :: cs =>
    (if boundaryBefore prev then
      (let s := c :: cs
       let wl := takeRunLen isWordChar s
       if 1 ≤ wl then
         let w := s.take wl
         let rest1 := s.drop wl
         let sl := takeRunLen isWsChar rest1
         if 1 ≤ sl then
           let rest2 := rest1.drop sl
           List.isPrefixOf w rest2 && wordBoundaryAfter (rest2.drop wl)
         else false
       else false)
     else false) ||
    containsRepeatedWordAux (some c) cs

/-- Does the string contain a word immediately followed by a second,
identical copy of the same word (separated by whitespace)? -/
def containsRepeatedWord (s : List Char) : Bool :=
  containsRepeatedWordAux none s

/-- The amended claim C4 property of a single Change: if it is a
capitalize-after-period change, its recorded position is 0. -/
def capPosZero (ch : Change) : Prop :=
  ch.description = "Capitalized after period" → ch.position = 0

/-! # Theorems -/

/-! ## Claim C9: empty input -/

/-- Claim C9: `applyCorrections` applied to the empty string returns a
`CorrectionResult` with `corrected = ""` and an empty change list; in
particular no terminal punctuation is inserted. -/
theorem applyCorrections_empty :
    applyCorrections "" [] = { original := "", corrected := "", changes := [] } := by
  decide

/-! ## Claim C10: the `similarities` parameter is never read -/

/-- Claim C10: for every input text, `applyCorrections` returns identical
results for any two values of the `similarities` argument — the parameter
is accepted but never read, so the output depends only on the text. -/
theorem applyCorrections_ignores_similarities (text : String) (s1 s2 : List ℚ) :
    applyCorrections text s1 = applyCorrections text s2 := rfl

/-! ## Claim C2: transcript merge on `complete` -/

/-- Claim C2 (code bug witness): the streaming hook's `complete` handler
replaces the transcript with the new result text instead of appending.
With previous transcript `"hello"` and payload `{text: "world"}` it
yields `"world"`, of which `"hello"` is not a prefix, while the
blob-based hook (`src/hooks/useTranscribe.ts`) yields `"hello world"` as
the claim (and the repository's architecture documentation) state. -/
theorem part002_complete_replaces_transcript :
    handleCompletePart002 "hello" (WorkerData.objWithText "world") = "world" ∧
    handleCompleteMain "hello" (WorkerData.objWithText "world") = "hello world" ∧
    List.isPrefixOf "hello".data
      (handleCompletePart002 "hello" (WorkerData.objWithText "world")).data = false := by
  decide

/-! ## Claim C1: dispatch is not serialized -/

/-- Claim C1 (counterexample): in the streaming hook, 94 frames of 4096
samples at 48 kHz (about 8 seconds of audio) with no intervening
`complete`/`error` events produce two dispatched `transcribe` requests
that are simultaneously outstanding, so it is false that at most one
request is outstanding at every point. -/
theorem dispatch_outstanding_two :
    (runStream 48000 (List.replicate 94 (StreamEvent.frame 4096))).outstanding = 2 ∧
    ¬ (∀ evs : List StreamEvent, (runStream 48000 evs).outstanding ≤ 1) := by
  refine ⟨by decide, fun hall => ?_⟩
  have h2 := hall (List.replicate 94 (StreamEvent.frame 4096))
  revert h2
  decide

/-- Invariant step for the amended claim C1: the buffer is always flushed
(and its chunk dispatched at once) upon reaching the 4-second threshold,
so a reachable buffer never holds a full chunk. -/
theorem streamStep_bufLen_inv (sampleRate : Nat) (h : 0 < sampleRate) :
    ∀ (evs : List StreamEvent) (s : StreamState), s.bufLen < sampleRate * 4 →
      (evs.foldl (streamStep sampleRate) s).bufLen < sampleRate * 4 := by
  intro evs
  induction evs with
  | nil => intro s hs; exact hs
  | cons e rest ih =>
    intro s hs
    rw [List.foldl_cons]
    apply ih
    cases e with
    | frame n =>
      simp only [streamStep]
      split
      · simpa using by omega
      · next hlt => simpa using by omega
    | completeEvt => exact hs
    | errorEvt => exact hs

/-- Claim C1 (amended): a normalized chunk is dispatched immediately when
the accumulated buffer reaches the `sampleRate * 4` threshold, without
waiting for a `complete` or `error` of any earlier request and without
any holding queue: after any event sequence the buffer holds strictly
fewer samples than one chunk. -/
theorem dispatch_immediate_flush (sampleRate : Nat) (evs : List StreamEvent)
    (h : 0 < sampleRate) :
    (runStream sampleRate evs).bufLen < sampleRate * 4 :=
  streamStep_bufLen_inv sampleRate h evs ⟨0, 0, 0⟩ (by simpa using by omega)

/-- Witness for the amended claim C1 at a concrete session. -/
theorem dispatch_immediate_flush_witness :
    0 < 48000 ∧
    (runStream 48000 [StreamEvent.frame 200000, StreamEvent.completeEvt]).bufLen <
      48000 * 4 :=
  ⟨by decide, dispatch_immediate_flush 48000 [StreamEvent.frame 200000, StreamEvent.completeEvt]
    (by decide)⟩

/-! ## Claim C8: the worker converts every failure to a typed error -/

/-- Claim C8: the worker's message handler is a total function into a
list of posted messages (no exception crosses the worker boundary, the
`try`/`catch` being modelled by the `Except` outcomes), and every failure
while handling `configure` or `transcribe` — including a `transcribe`
with missing audio — results in a posted message of type `error`
carrying a reason string. -/
theorem worker_errors_always_posted (env : WorkerEnv) :
    (∀ e, env.loadOutcome = Except.error e →
      PostedMsg.error e ∈ handleWorkerMessage env WorkerMsg.configure) ∧
    handleWorkerMessage env (WorkerMsg.transcribe none) =
      [PostedMsg.error "No audio data provided"] ∧
    (∀ e audio, env.loadOutcome = Except.error e →
      handleWorkerMessage env (WorkerMsg.transcribe (some audio)) = [PostedMsg.error e]) ∧
    (∀ e audio, env.loadOutcome = Except.ok () → env.transcribeOutcome = Except.error e →
      handleWorkerMessage env (WorkerMsg.transcribe (some audio)) = [PostedMsg.error e]) := by
  refine ⟨?_, rfl, ?_, ?_⟩
  · intro e he
    simp [handleWorkerMessage, he]
  · intro e audio he
    simp [handleWorkerMessage, he]
  · intro e audio hl ht
    simp [handleWorkerMessage, hl, ht]

/-- Witness for claim C8 at concrete failing environments. -/
theorem worker_errors_always_posted_witness :
    PostedMsg.error "boom" ∈
      handleWorkerMessage ⟨[], Except.error "boom", Except.error "fail"⟩
        WorkerMsg.configure ∧
    handleWorkerMessage ⟨[], Except.ok (), Except.error "fail"⟩
      (WorkerMsg.transcribe (some [0])) = [PostedMsg.error "fail"] :=
  ⟨(worker_errors_always_posted _).1 "boom" rfl,
   (worker_errors_always_posted _).2.2.2 "fail" [0] rfl rfl⟩

/-! ## Claim C7: repeated-word collapse -/

/-- Claim C7 (counterexample): the corrected output can still contain an
immediately repeated identical word.  For the input `"a go go go"` the
single left-to-right pass of `/\b(\w+)\s+\1\b/gi` collapses only the
first `"go go"`, and the corrected output `"A go go."` still contains
the word `"go"` immediately followed by a second copy of itself. -/
theorem repeated_word_survives_triple :
    (applyCorrections "a go go go" []).corrected = "A go go." ∧
    containsRepeatedWord (applyCorrections "a go go go" []).corrected.data = true := by
  decide

/-- Claim C7 (amended): the artifact pass collapses immediately repeated
identical word pairs in a single left-to-right pass, but a run of three
identical words is only partially collapsed, so a repeat can survive in
the output: `"a go go"` yields `"A go."` with no remaining repeat, while
`"a go go go"` yields `"A go go."`. -/
theorem repeated_word_single_pass_collapse :
    (applyCorrections "a go go" []).corrected = "A go." ∧
    containsRepeatedWord (applyCorrections "a go go" []).corrected.data = false ∧
    (applyCorrections "a go go go" []).corrected = "A go go." := by
  decide

/-! ## Claim C4: recorded change positions -/

/-- Claim C4 (counterexample): `applyCorrections "a. b. c"` performs two
capitalize-after-period corrections, at the two period sites (offsets 1
and 4 of the pre-correction input), yet both recorded Changes carry
position 0 — so a Change's position is not the character offset in the
pre-correction input at which the correction applied (two distinct
corrections at distinct offsets share one recorded position). -/
theorem change_position_not_precorrection_offset :
    ((applyCorrections "a. b. c" []).changes.filter
        (fun ch => ch.description == "Capitalized after period")).map Change.position =
      [0, 0] ∧
    "a. b. c".data.enum.filterMap
        (fun p => if p.2 == '.' then some p.1 else none) = [1, 4] := by
  decide

/-! ## Claims C3 and C5: normalization -/

/-- The initial accumulator is a lower bound of the peak fold. -/
theorem foldl_max_abs_init_le (l : List ℚ) :
    ∀ a : ℚ, a ≤ l.foldl (fun p x => max p |x|) a := by
  induction l with
  | nil => intro a; simp
  | cons x xs ih =>
    intro a
    rw [List.foldl_cons]
    exact le_trans (le_max_left a |x|) (ih (max a |x|))

/-- Every element's absolute value is bounded by the peak fold. -/
theorem abs_le_foldl_max_abs (l : List ℚ) :
    ∀ (a x : ℚ), x ∈ l → |x| ≤ l.foldl (fun p y => max p |y|) a := by
  induction l with
  | nil => intro a x hx; simp at hx
  | cons y ys ih =>
    intro a x hx
    rw [List.foldl_cons]
    rcases List.mem_cons.mp hx with h | h
    · subst h
      exact le_trans (le_max_right a |x|) (foldl_max_abs_init_le ys (max a |x|))
    · exact ih (max a |y|) x h

/-- The peak is an upper bound of the absolute sample values. -/
theorem abs_le_peakOf {x : ℚ} {l : List ℚ} (hx : x ∈ l) : |x| ≤ peakOf l :=
  abs_le_foldl_max_abs l 0 x hx

/-- Scaling all samples by a nonnegative gain scales the peak fold. -/
theorem foldl_max_abs_map_mul (g : ℚ) (hg : 0 ≤ g) (l : List ℚ) :
    ∀ a : ℚ, (l.map (fun x => x * g)).foldl (fun p x => max p |x|) (g * a) =
      g * l.foldl (fun p x => max p |x|) a := by
  induction l with
  | nil => intro a; simp
  | cons x xs ih =>
    intro a
    rw [List.map_cons, List.foldl_cons, List.foldl_cons]
    have habs : |x * g| = g * |x| := by
      rw [abs_mul, abs_of_nonneg hg, mul_comm]
    rw [habs, ← mul_max_of_nonneg _ _ hg, ih]

/-- Scaling all samples by a nonnegative gain scales the peak. -/
theorem peakOf_map_mul (g : ℚ) (hg : 0 ≤ g) (l : List ℚ) :
    peakOf (l.map (fun x => x * g)) = g * peakOf l := by
  have h := foldl_max_abs_map_mul g hg l 0
  rw [mul_zero] at h
  simpa [peakOf] using h

/-- Claim C3: for every sample buffer whose peak is strictly positive
(finiteness is automatic in the exact-rational model of the floats),
normalization applies the uniform gain `0.95 / peak`; the peak of the
normalized output equals `0.95` exactly, and no normalized sample
exceeds `0.95` in absolute value. -/
theorem normalizeAudio_peak_target (l : List ℚ) (h : 0 < peakOf l) :
    (normalizeAudio l).gain = 0.95 / peakOf l ∧
    peakOf (normalizeAudio l).normalizedData = 0.95 ∧
    ∀ x ∈ (normalizeAudio l).normalizedData, |x| ≤ 0.95 := by
  have hne : peakOf l ≠ 0 := ne_of_gt h
  have hg : (0 : ℚ) ≤ 0.95 / peakOf l := div_nonneg (by norm_num) h.le
  have hval : normalizeAudio l =
      { normalizedData := l.map (fun x => x * (0.95 / peakOf l)), peak := peakOf l,
        gain := 0.95 / peakOf l, flaggedSilent := false } := by
    simp [normalizeAudio, hne]
  rw [hval]
  refine ⟨rfl, ?_, ?_⟩
  · rw [peakOf_map_mul _ hg l, div_mul_cancel₀]
    exact hne
  · intro x hx
    rcases List.mem_map.mp hx with ⟨y, hy, rfl⟩
    rw [abs_mul, abs_of_nonneg hg]
    calc |y| * (0.95 / peakOf l) ≤ peakOf l * (0.95 / peakOf l) :=
          mul_le_mul_of_nonneg_right (abs_le_peakOf hy) hg
      _ = 0.95 := by field_simp

/-- Witness for claim C3 at a concrete two-sample buffer. -/
theorem normalizeAudio_peak_target_witness :
    0 < peakOf [(1 : ℚ)/2, -(1 : ℚ)/4] ∧
    ((normalizeAudio [(1 : ℚ)/2, -(1 : ℚ)/4]).gain = 0.95 / peakOf [(1 : ℚ)/2, -(1 : ℚ)/4] ∧
      peakOf (normalizeAudio [(1 : ℚ)/2, -(1 : ℚ)/4]).normalizedData = 0.95 ∧
      ∀ x ∈ (normalizeAudio [(1 : ℚ)/2, -(1 : ℚ)/4]).normalizedData, |x| ≤ 0.95) := by
  have habs : (0 : ℚ) < |(1 : ℚ)/2| := by
    rw [abs_of_pos] <;> norm_num
  have hpos : 0 < peakOf [(1 : ℚ)/2, -(1 : ℚ)/4] :=
    lt_of_lt_of_le habs (abs_le_peakOf (by simp))
  exact ⟨hpos, normalizeAudio_peak_target [(1 : ℚ)/2, -(1 : ℚ)/4] hpos⟩

/-- The peak fold of an all-zero buffer keeps a nonnegative accumulator. -/
theorem foldl_max_abs_all_zero (l : List ℚ) (hl : ∀ x ∈ l, x = 0) :
    ∀ a : ℚ, 0 ≤ a → l.foldl (fun p x => max p |x|) a = a := by
  induction l with
  | nil => intro a _; rfl
  | cons x xs ih =>
    intro a ha
    rw [List.foldl_cons]
    have hx : x = 0 := hl x (List.mem_cons_self x xs)
    have : max a |x| = a := by
      rw [hx, abs_zero]
      exact max_eq_left ha
    rw [this]
    exact ih (fun y hy => hl y (List.mem_cons_of_mem x hy)) a ha

/-- The peak of an all-zero buffer is zero. -/
theorem peakOf_all_zero {l : List ℚ} (hl : ∀ x ∈ l, x = 0) : peakOf l = 0 :=
  foldl_max_abs_all_zero l hl 0 le_rfl

/-- Claim C5: for an all-zero input buffer, normalization returns the
input samples unchanged, reports gain 1.0, and raises the invalid-silent
flag (the source's error log in the zero-peak branch). -/
theorem normalizeAudio_silent_noop (l : List ℚ) (hl : ∀ x ∈ l, x = 0) :
    normalizeAudio l =
      { normalizedData := l, peak := 0, gain := 1, flaggedSilent := true } := by
  have hp : peakOf l = 0 := peakOf_all_zero hl
  simp [normalizeAudio, hp]

/-- Witness for claim C5 at a concrete all-zero buffer. -/
theorem normalizeAudio_silent_noop_witness :
    (∀ x ∈ ([0, 0, 0] : List ℚ), x = 0) ∧
    normalizeAudio [0, 0, 0] =
      { normalizedData := [0, 0, 0], peak := 0, gain := 1, flaggedSilent := true } :=
  ⟨by decide, normalizeAudio_silent_noop [0, 0, 0] (by decide)⟩

/-! ## Character-class lemmas -/

/-- A terminal character is `.`, `!` or `?`. -/
theorem isTermChar_cases {c : Char} (h : isTermChar c = true) :
    c = '.' ∨ c = '!' ∨ c = '?' := by
  simp only [isTermChar, Bool.or_eq_true, beq_iff_eq] at h
  tauto

/-- A whitespace character is one of the six ASCII whitespace characters. -/
theorem isWsChar_cases {c : Char} (h : isWsChar c = true) :
    c = ' ' ∨ c = '\t' ∨ c = '\n' ∨ c = '\x0b' ∨ c = '\x0c' ∨ c = '\r' := by
  simp only [isWsChar, Bool.or_eq_true, beq_iff_eq] at h
  tauto

/-- Terminal characters are not whitespace. -/
theorem term_not_ws {c : Char} (h : isTermChar c = true) : isWsChar c = false := by
  rcases isTermChar_cases h with rfl | rfl | rfl <;> decide

/-- Terminal characters are not word characters. -/
theorem term_not_word {c : Char} (h : isTermChar c = true) : isWordChar c = false := by
  rcases isTermChar_cases h with rfl | rfl | rfl <;> decide

/-- Whitespace characters are not word characters. -/
theorem ws_not_word {c : Char} (h : isWsChar c = true) : isWordChar c = false := by
  rcases isWsChar_cases h with rfl | rfl | rfl | rfl | rfl | rfl <;> decide

/-- Whitespace characters are not terminal. -/
theorem ws_not_term {c : Char} (h : isWsChar c = true) : isTermChar c = false := by
  rcases isWsChar_cases h with rfl | rfl | rfl | rfl | rfl | rfl <;> decide

/-- Word characters are not terminal. -/
theorem word_not_term {c : Char} (h : isWordChar c = true) : isTermChar c = false := by
  cases ht : isTermChar c
  · rfl
  · rw [term_not_word ht] at h
    exact Bool.noConfusion h

/-- Arithmetic characterisation of case-insensitive equality. -/
theorem eqCI_toNat {a b : Char} (h : eqCI a b = true) :
    a = b ∨ (65 ≤ a.toNat ∧ a.toNat ≤ 90 ∧ a.toNat + 32 = b.toNat) ∨
      (65 ≤ b.toNat ∧ b.toNat ≤ 90 ∧ b.toNat + 32 = a.toNat) := by
  simp only [eqCI, isAsciiUpper, Bool.or_eq_true, Bool.and_eq_true, beq_iff_eq,
    decide_eq_true_eq] at h
  tauto

/-- A character case-insensitively equal to a word character is not a
terminal character. -/
theorem eqCI_word_not_term {c b : Char} (hb : isWordChar b = true)
    (heq : eqCI c b = true) : isTermChar c = false := by
  cases ht : isTermChar c
  · rfl
  exfalso
  rcases eqCI_toNat heq with rfl | ⟨h1, h2, h3⟩ | ⟨h1, h2, h3⟩
  · rw [term_not_word ht] at hb
    exact Bool.noConfusion hb
  · rcases isTermChar_cases ht with rfl | rfl | rfl
    · exact absurd h1 (by decide)
    · exact absurd h1 (by decide)
    · exact absurd h1 (by decide)
  · rcases isTermChar_cases ht with rfl | rfl | rfl
    · rw [show ('.' : Char).toNat = 46 from rfl] at h3
      omega
    · rw [show ('!' : Char).toNat = 33 from rfl] at h3
      omega
    · rw [show ('?' : Char).toNat = 63 from rfl] at h3
      omega

/-- A whitespace character is never case-insensitively equal to a word
character. -/
theorem eqCI_ws_word_false {c b : Char} (hc : isWsChar c = true)
    (hb : isWordChar b = true) : eqCI c b = false := by
  cases he : eqCI c b
  · rfl
  exfalso
  rcases eqCI_toNat he with rfl | ⟨h1, h2, h3⟩ | ⟨h1, h2, h3⟩
  · rw [ws_not_word hc] at hb
    exact Bool.noConfusion hb
  · rcases isWsChar_cases hc with rfl | rfl | rfl | rfl | rfl | rfl <;>
      exact absurd h1 (by decide)
  · rcases isWsChar_cases hc with rfl | rfl | rfl | rfl | rfl | rfl
    · rw [show (' ' : Char).toNat = 32 from rfl] at h3
      omega
    · rw [show ('\t' : Char).toNat = 9 from rfl] at h3
      omega
    · rw [show ('\n' : Char).toNat = 10 from rfl] at h3
      omega
    · rw [show ('\x0b' : Char).toNat = 11 from rfl] at h3
      omega
    · rw [show ('\x0c' : Char).toNat = 12 from rfl] at h3
      omega
    · rw [show ('\r' : Char).toNat = 13 from rfl] at h3
      omega

/-! ## Lemmas on `startsWithCI` and `takeRunLen` -/

/-- A case-insensitive match of an all-word-character pattern consumes no
terminal characters. -/
theorem startsWithCI_take_no_term (w : List Char) (hw : ∀ b ∈ w, isWordChar b = true) :
    ∀ s : List Char, startsWithCI w s = true →
      ∀ c ∈ s.take w.length, isTermChar c = false := by
  induction w with
  | nil => intro s _ c hc; simp at hc
  | cons b bs ih =>
    intro s hs c hc
    cases s with
    | nil => exact absurd hs (by simp [startsWithCI])
    | cons a as =>
      simp only [startsWithCI, Bool.and_eq_true] at hs
      simp only [List.length_cons, List.take_succ_cons, List.mem_cons] at hc
      rcases hc with rfl | hc
      · exact eqCI_word_not_term (hw b (List.mem_cons_self b bs)) hs.1
      · exact ih (fun x hx => hw x (List.mem_cons_of_mem b hx)) as hs.2 c hc

/-- A pattern starting with a word character cannot match at a
whitespace character. -/
theorem startsWithCI_ws_head_false {b : Char} {bs : List Char} {c : Char} {cs : List Char}
    (hb : isWordChar b = true) (hc : isWsChar c = true) :
    startsWithCI (b :: bs) (c :: cs) = false := by
  simp [startsWithCI, eqCI_ws_word_false hc hb]

/-- The run length never exceeds the string length. -/
theorem takeRunLen_le_length (p : Char → Bool) (s : List Char) :
    takeRunLen p s ≤ s.length := by
  induction s with
  | nil => simp [takeRunLen]
  | cons c cs ih =>
    simp only [takeRunLen, List.length_cons]
    split
    · omega
    · omega

/-- Every character of the run prefix satisfies the run predicate. -/
theorem takeRunLen_take_sat (p : Char → Bool) :
    ∀ s : List Char, ∀ c ∈ s.take (takeRunLen p s), p c = true := by
  intro s
  induction s with
  | nil => simp
  | cons a as ih =>
    intro c hc
    by_cases hp : p a = true
    · rw [show takeRunLen p (a :: as) = takeRunLen p as + 1 by
          simp [takeRunLen, hp], List.take_succ_cons] at hc
      rcases List.mem_cons.mp hc with rfl | hc
      · exact hp
      · exact ih c hc
    · rw [show takeRunLen p (a :: as) = 0 by simp [takeRunLen, hp]] at hc
      simp at hc

/-! ## Unfolding equations for `gscanF` -/

/-- `gscanF` with no fuel returns the subject unchanged. -/
theorem gscanF_zero (m : Matcher) (pos : Nat) (prev : Option Char) (s : List Char) :
    gscanF m 0 pos prev s = (s, []) := rfl

/-- `gscanF` on the empty subject. -/
theorem gscanF_succ_nil (m : Matcher) (fuel pos : Nat) (prev : Option Char) :
    gscanF m (fuel + 1) pos prev [] = ([], []) := rfl

/-- One step of `gscanF` on a non-empty subject. -/
theorem gscanF_succ_cons (m : Matcher) (fuel pos : Nat) (prev : Option Char)
    (c : Char) (cs : List Char) :
    gscanF m (fuel + 1) pos prev (c :: cs) =
      match m pos prev (c :: cs) with
      | some (n + 1, repl, chs) =>
        let r := gscanF m fuel (pos + n + 1) (c :: cs)[n]? ((c :: cs).drop (n + 1))
        (repl ++ r.1, chs ++ r.2)
      | _ =>
        let r := gscanF m fuel (pos + 1) (some c) cs
        (c :: r.1, r.2) := rfl

/-! ## Master lemmas about the scanner -/

/-- Every change emitted by a scan comes from some matcher invocation, so
a property of all matcher-emitted changes holds for all scan changes. -/
theorem gscanF_changes_prop (m : Matcher) (P : Change → Prop)
    (hm : ∀ pos prev s n repl chs, m pos prev s = some (n + 1, repl, chs) →
      ∀ ch ∈ chs, P ch) :
    ∀ fuel pos prev s, ∀ ch ∈ (gscanF m fuel pos prev s).2, P ch := by
  intro fuel
  induction fuel with
  | zero =>
    intro pos prev s ch hch
    rw [gscanF_zero] at hch
    simp at hch
  | succ k ih =>
    intro pos prev s ch hch
    cases s with
    | nil =>
      rw [gscanF_succ_nil] at hch
      simp at hch
    | cons c cs =>
      rw [gscanF_succ_cons] at hch
      rcases hmc : m pos prev (c :: cs) with _ | ⟨n, repl, chs⟩
      · rw [hmc] at hch
        exact ih (pos + 1) (some c) cs ch hch
      · rw [hmc] at hch
        cases n with
        | zero => exact ih (pos + 1) (some c) cs ch hch
        | succ n =>
          have hch2 : ch ∈ chs ++
              (gscanF m k (pos + n + 1) (c :: cs)[n]? ((c :: cs).drop (n + 1))).2 := hch
          rcases List.mem_append.mp hch2 with h | h
          · exact hm pos prev (c :: cs) n repl chs hmc ch h
          · exact ih _ _ _ ch h

/-- A scan whose matcher never matches inside all-whitespace strings
leaves an all-whitespace string unchanged. -/
theorem gscanF_wsOnly (m : Matcher)
    (h2 : ∀ pos prev s n repl chs, (∀ c ∈ s, isWsChar c = true) →
      m pos prev s = some (n + 1, repl, chs) → False) :
    ∀ fuel pos prev v, (∀ c ∈ v, isWsChar c = true) →
      (gscanF m fuel pos prev v).1 = v := by
  intro fuel
  induction fuel with
  | zero => intro pos prev v _; rw [gscanF_zero]
  | succ k ih =>
    intro pos prev v hv
    cases v with
    | nil => rw [gscanF_succ_nil]
    | cons c cs =>
      rw [gscanF_succ_cons]
      rcases hmc : m pos prev (c :: cs) with _ | ⟨n, repl, chs⟩
      · show c :: (gscanF m k (pos + 1) (some c) cs).1 = c :: cs
        rw [ih (pos + 1) (some c) cs (fun x hx => hv x (List.mem_cons_of_mem c hx))]
      · cases n with
        | zero =>
          show c :: (gscanF m k (pos + 1) (some c) cs).1 = c :: cs
          rw [ih (pos + 1) (some c) cs (fun x hx => hv x (List.mem_cons_of_mem c hx))]
        | succ n =>
          exact absurd hmc (fun hh => h2 pos prev (c :: cs) n repl chs hv hh)

/-- A scan whose matcher consumes no terminal characters and never
matches inside all-whitespace strings preserves a suffix consisting of a
terminal character followed by whitespace. -/
theorem gscanF_term_suffix (m : Matcher)
    (h1 : ∀ pos prev s n repl chs, m pos prev s = some (n + 1, repl, chs) →
      ∀ c ∈ s.take (n + 1), isTermChar c = false)
    (h2 : ∀ pos prev s n repl chs, (∀ c ∈ s, isWsChar c = true) →
      m pos prev s = some (n + 1, repl, chs) → False) :
    ∀ fuel pos prev u (t : Char) v, isTermChar t = true →
      (∀ c ∈ v, isWsChar c = true) →
      ∃ w, (gscanF m fuel pos prev (u ++ t :: v)).1 = w ++ t :: v := by
  intro fuel
  induction fuel with
  | zero =>
    intro pos prev u t v _ _
    exact ⟨u, by rw [gscanF_zero]⟩
  | succ k ih =>
    intro pos prev u t v ht hv
    cases u with
    | nil =>
      rw [List.nil_append, gscanF_succ_cons]
      rcases hmc : m pos prev (t :: v) with _ | ⟨n, repl, chs⟩
      · refine ⟨[], ?_⟩
        show t :: (gscanF m k (pos + 1) (some t) v).1 = [] ++ t :: v
        rw [gscanF_wsOnly m h2 k (pos + 1) (some t) v hv]
        rfl
      · cases n with
        | zero =>
          refine ⟨[], ?_⟩
          show t :: (gscanF m k (pos + 1) (some t) v).1 = [] ++ t :: v
          rw [gscanF_wsOnly m h2 k (pos + 1) (some t) v hv]
          rfl
        | succ n =>
          exfalso
          have hmem : t ∈ (t :: v).take (n + 1) := by
            rw [List.take_succ_cons]
            exact List.mem_cons_self t _
          have := h1 pos prev (t :: v) n repl chs hmc t hmem
          rw [this] at ht
          exact Bool.noConfusion ht
    | cons a u2 =>
      rw [List.cons_append, gscanF_succ_cons]
      rcases hmc : m pos prev (a :: (u2 ++ t :: v)) with _ | ⟨n, repl, chs⟩
      · rcases ih (pos + 1) (some a) u2 t v ht hv with ⟨w, hw⟩
        refine ⟨a :: w, ?_⟩
        show a :: (gscanF m k (pos + 1) (some a) (u2 ++ t :: v)).1 = (a :: w) ++ t :: v
        rw [hw, List.cons_append]
      · cases n with
        | zero =>
          rcases ih (pos + 1) (some a) u2 t v ht hv with ⟨w, hw⟩
          refine ⟨a :: w, ?_⟩
          show a :: (gscanF m k (pos + 1) (some a) (u2 ++ t :: v)).1 = (a :: w) ++ t :: v
          rw [hw, List.cons_append]
        | succ n =>
          have hcons : a :: (u2 ++ t :: v) = (a :: u2) ++ t :: v := rfl
          have hlen : n + 1 ≤ (a :: u2).length := by
            by_contra hgt
            push_neg at hgt
            have hmem : t ∈ (a :: (u2 ++ t :: v)).take (n + 1) := by
              rw [hcons, List.take_append_eq_append_take]
              apply List.mem_append_right
              cases hnn : n + 1 - (a :: u2).length with
              | zero => omega
              | succ kk =>
                rw [List.take_succ_cons]
                exact List.mem_cons_self t _
            have := h1 pos prev _ n repl chs hmc t hmem
            rw [this] at ht
            exact Bool.noConfusion ht
          have hdrop : (a :: (u2 ++ t :: v)).drop (n + 1) =
              ((a :: u2).drop (n + 1)) ++ t :: v := by
            rw [hcons, List.drop_append_eq_append_drop, Nat.sub_eq_zero_of_le hlen,
              List.drop_zero]
          rcases ih (pos + n + 1) ((a :: (u2 ++ t :: v))[n]?)
              ((a :: u2).drop (n + 1)) t v ht hv with ⟨w, hw⟩
          refine ⟨repl ++ w, ?_⟩
          show repl ++ (gscanF m k (pos + n + 1) ((a :: (u2 ++ t :: v))[n]?)
              ((a :: (u2 ++ t :: v)).drop (n + 1))).1 = (repl ++ w) ++ t :: v
          rw [hdrop, hw, List.append_assoc]

/-- A scan whose matcher preserves the non-whitespace characters of each
match preserves the non-whitespace characters of the whole subject. -/
theorem gscanF_filter_nonWs (m : Matcher)
    (h3 : ∀ pos prev s n repl chs, m pos prev s = some (n + 1, repl, chs) →
      repl.filter (fun c => !isWsChar c) =
        (s.take (n + 1)).filter (fun c => !isWsChar c)) :
    ∀ fuel pos prev s, ((gscanF m fuel pos prev s).1).filter (fun c => !isWsChar c) =
      s.filter (fun c => !isWsChar c) := by
  intro fuel
  induction fuel with
  | zero => intro pos prev s; rw [gscanF_zero]
  | succ k ih =>
    intro pos prev s
    cases s with
    | nil => rw [gscanF_succ_nil]
    | cons c cs =>
      rw [gscanF_succ_cons]
      rcases hmc : m pos prev (c :: cs) with _ | ⟨n, repl, chs⟩
      · show List.filter _ (c :: (gscanF m k (pos + 1) (some c) cs).1) = _
        rw [List.filter_cons, List.filter_cons, ih (pos + 1) (some c) cs]
      · cases n with
        | zero =>
          show List.filter _ (c :: (gscanF m k (pos + 1) (some c) cs).1) = _
          rw [List.filter_cons, List.filter_cons, ih (pos + 1) (some c) cs]
        | succ n =>
          show List.filter _
              (repl ++ (gscanF m k (pos + n + 1) (c :: cs)[n]?
                ((c :: cs).drop (n + 1))).1) = _
          rw [List.filter_append, h3 pos prev (c :: cs) n repl chs hmc,
            ih _ _ ((c :: cs).drop (n + 1)), ← List.filter_append,
            List.take_append_drop]

/-! ## Matcher obligations for the artifact stages -/

/-- A whole-word replacement consumes no terminal characters. -/
theorem wordReplaceMatcher_no_term (w target : List Char)
    (hw : ∀ b ∈ w, isWordChar b = true) :
    ∀ pos prev s n repl chs,
      wordReplaceMatcher w target pos prev s = some (n + 1, repl, chs) →
      ∀ c ∈ s.take (n + 1), isTermChar c = false := by
  intro pos prev s n repl chs heq c hc
  unfold wordReplaceMatcher at heq
  split at heq
  · rename_i hcond
    simp only [Option.some.injEq, Prod.mk.injEq] at heq
    obtain ⟨hlen, -, -⟩ := heq
    simp only [Bool.and_eq_true] at hcond
    rw [← hlen] at hc
    exact startsWithCI_take_no_term w hw s hcond.1.2 c hc
  · exact absurd heq (by simp)

/-- A whole-word replacement of a word starting with a word character
never matches inside an all-whitespace string. -/
theorem wordReplaceMatcher_no_ws_match (b : Char) (bs : List Char) (target : List Char)
    (hb : isWordChar b = true) :
    ∀ pos prev s n repl chs, (∀ c ∈ s, isWsChar c = true) →
      wordReplaceMatcher (b :: bs) target pos prev s = some (n + 1, repl, chs) →
      False := by
  intro pos prev s n repl chs hws heq
  unfold wordReplaceMatcher at heq
  split at heq
  · rename_i hcond
    simp only [Bool.and_eq_true] at hcond
    have hstart := hcond.1.2
    cases s with
    | nil => exact absurd hstart (by simp [startsWithCI])
    | cons c cs =>
      rw [startsWithCI_ws_head_false hb (hws c (List.mem_cons_self c cs))] at hstart
      exact Bool.noConfusion hstart
  · exact absurd heq (by simp)

/-- The repeated-word collapse consumes no terminal characters: the
match consists of word characters, whitespace, and characters
case-insensitively equal to word characters. -/
theorem repeatedWordMatcher_no_term :
    ∀ pos prev s n repl chs, repeatedWordMatcher pos prev s = some (n + 1, repl, chs) →
      ∀ c ∈ s.take (n + 1), isTermChar c = false := by
  intro pos prev s n repl chs heq c hc
  simp only [repeatedWordMatcher] at heq
  split at heq
  · split at heq
    · split at heq
      · split at heq
        · rename_i hwl hsl hstart
          simp only [Option.some.injEq, Prod.mk.injEq] at heq
          obtain ⟨hlen, -, -⟩ := heq
          simp only [Bool.and_eq_true] at hstart
          rw [← hlen] at hc
          -- split the matched region into the three segments
          rw [show takeRunLen isWordChar s +
                takeRunLen isWsChar (s.drop (takeRunLen isWordChar s)) +
                takeRunLen isWordChar s =
              (takeRunLen isWordChar s +
                takeRunLen isWsChar (s.drop (takeRunLen isWordChar s))) +
                takeRunLen isWordChar s from rfl, List.take_add, List.take_add] at hc
          rcases List.mem_append.mp hc with hc2 | hc3
          · rcases List.mem_append.mp hc2 with hA | hB
            · exact word_not_term (takeRunLen_take_sat isWordChar s c hA)
            · exact ws_not_term
                (takeRunLen_take_sat isWsChar (s.drop (takeRunLen isWordChar s)) c hB)
          · -- the back-reference copy
            have hdd : (s.drop (takeRunLen isWordChar s)).drop
                  (takeRunLen isWsChar (s.drop (takeRunLen isWordChar s))) =
                s.drop (takeRunLen isWordChar s +
                  takeRunLen isWsChar (s.drop (takeRunLen isWordChar s))) := by
              rw [List.drop_drop]
            have hwlen : (s.take (takeRunLen isWordChar s)).length =
                takeRunLen isWordChar s := by
              rw [List.length_take]
              exact Nat.min_eq_left (takeRunLen_le_length isWordChar s)
            have := startsWithCI_take_no_term (s.take (takeRunLen isWordChar s))
              (fun b hb => takeRunLen_take_sat isWordChar s b hb)
              ((s.drop (takeRunLen isWordChar s)).drop
                (takeRunLen isWsChar (s.drop (takeRunLen isWordChar s))))
              hstart.1 c
            rw [hwlen, hdd] at this
            exact this hc3
        · exact absurd heq (by simp)
      · exact absurd heq (by simp)
    · exact absurd heq (by simp)
  · exact absurd heq (by simp)

/-- The repeated-word collapse never matches inside an all-whitespace
string (a match needs a leading word-character run). -/
theorem repeatedWordMatcher_no_ws_match :
    ∀ pos prev s n repl chs, (∀ c ∈ s, isWsChar c = true) →
      repeatedWordMatcher pos prev s = some (n + 1, repl, chs) → False := by
  intro pos prev s n repl chs hws heq
  simp only [repeatedWordMatcher] at heq
  split at heq
  · split at heq
    · rename_i hwl
      cases s with
      | nil => simp [takeRunLen] at hwl
      | cons c cs =>
        rw [show takeRunLen isWordChar (c :: cs) = 0 by
            simp [takeRunLen, ws_not_word (hws c (List.mem_cons_self c cs))]] at hwl
        omega
    · exact absurd heq (by simp)
  · exact absurd heq (by simp)

/-- Removing whitespace before `,`/`.` preserves the non-whitespace
characters of the match. -/
theorem wsBeforePunctMatcher_filter :
    ∀ pos prev s n repl chs, wsBeforePunctMatcher pos prev s = some (n + 1, repl, chs) →
      repl.filter (fun c => !isWsChar c) =
        (s.take (n + 1)).filter (fun c => !isWsChar c) := by
  intro pos prev s n repl chs heq
  simp only [wsBeforePunctMatcher] at heq
  split at heq
  · rename_i hrun
    split at heq
    · rename_i p tail hd
      split at heq
      · simp only [Option.some.injEq, Prod.mk.injEq] at heq
        obtain ⟨hlen, hrepl, -⟩ := heq
        subst hrepl
        rw [← hlen]
        have hsplit : s.take (takeRunLen isWsChar s + 1) =
            s.take (takeRunLen isWsChar s) ++ [p] := by
          rw [List.take_add, hd, List.take_succ_cons, List.take_zero]
        rw [hsplit, List.filter_append]
        have hnil : (s.take (takeRunLen isWsChar s)).filter (fun c => !isWsChar c) = [] := by
          rw [List.filter_eq_nil_iff]
          intro a ha
          simp [takeRunLen_take_sat isWsChar s a ha]
        rw [hnil, List.nil_append]
      · exact absurd heq (by simp)
    · exact absurd heq (by simp)
  · exact absurd heq (by simp)

/-- Collapsing whitespace after `,`/`.` preserves the non-whitespace
characters of the match. -/
theorem punctWsMatcher_filter :
    ∀ pos prev s n repl chs, punctWsMatcher pos prev s = some (n + 1, repl, chs) →
      repl.filter (fun c => !isWsChar c) =
        (s.take (n + 1)).filter (fun c => !isWsChar c) := by
  intro pos prev s n repl chs heq
  simp only [punctWsMatcher] at heq
  split at heq
  · rename_i p tail
    split at heq
    · rename_i hp
      split at heq
      · rename_i hrun
        simp only [Option.some.injEq, Prod.mk.injEq] at heq
        obtain ⟨hlen, hrepl, -⟩ := heq
        subst hrepl
        rw [← hlen]
        have hpnw : isWsChar p = false := by
          rcases Bool.or_eq_true _ _ |>.mp hp with h | h
          · rw [beq_iff_eq.mp h]; rfl
          · rw [beq_iff_eq.mp h]; rfl
        rw [show (1 : Nat) + takeRunLen isWsChar tail = takeRunLen isWsChar tail + 1 by
            omega, List.take_succ_cons]
        have hnil : (tail.take (takeRunLen isWsChar tail)).filter
            (fun c => !isWsChar c) = [] := by
          rw [List.filter_eq_nil_iff]
          intro a ha
          simp [takeRunLen_take_sat isWsChar tail a ha]
        have hsp : isWsChar ' ' = true := rfl
        simp [List.filter_cons, hpnw, hsp, hnil]
      · exact absurd heq (by simp)
    · exact absurd heq (by simp)
  · exact absurd heq (by simp)

/-! ## The last non-whitespace character -/

/-- A string whose last non-whitespace character is `t` splits as
`u ++ t :: v` with `v` all-whitespace. -/
theorem lastNonWs_decomp {s : List Char} {t : Char} (h : lastNonWs s = some t) :
    ∃ u v, s = u ++ t :: v ∧ ∀ c ∈ v, isWsChar c = true := by
  induction s using List.reverseRecOn with
  | nil => simp [lastNonWs] at h
  | append_singleton s2 a ih =>
    by_cases ha : isWsChar a = true
    · have heq : lastNonWs (s2 ++ [a]) = lastNonWs s2 := by
        simp [lastNonWs, List.filter_append, ha]
      rw [heq] at h
      rcases ih h with ⟨u, v, hs, hv⟩
      refine ⟨u, v ++ [a], ?_, ?_⟩
      · rw [hs]
        simp
      · intro c hc
        rcases List.mem_append.mp hc with hcv | hca
        · exact hv c hcv
        · rw [List.mem_singleton.mp hca]
          exact ha
    · rw [Bool.not_eq_true] at ha
      have heq : lastNonWs (s2 ++ [a]) = some a := by
        simp [lastNonWs, List.filter_append, ha, List.getLast?_concat]
      rw [heq] at h
      obtain rfl : a = t := Option.some.inj h
      exact ⟨s2, [], by simp, by simp⟩

/-- Recomposition: appending a non-whitespace character and trailing
whitespace fixes the last non-whitespace character. -/
theorem lastNonWs_recomp {t : Char} (ht : isWsChar t = false) (w v : List Char)
    (hv : ∀ c ∈ v, isWsChar c = true) : lastNonWs (w ++ t :: v) = some t := by
  have hfv : v.filter (fun c => !isWsChar c) = [] := by
    rw [List.filter_eq_nil_iff]
    intro a ha
    simp [hv a ha]
  simp [lastNonWs, List.filter_append, List.filter_cons, ht, hfv, List.getLast?_concat]

/-- The head of the whitespace-stripped reversal is the last
non-whitespace character. -/
theorem head_dropWhile_ws_reverse :
    ∀ s : List Char, ((s.reverse).dropWhile isWsChar).head? = lastNonWs s := by
  intro s
  induction s using List.reverseRecOn with
  | nil => simp [lastNonWs]
  | append_singleton s2 a ih =>
    by_cases ha : isWsChar a = true
    · rw [List.reverse_append, show ([a] : List Char).reverse ++ s2.reverse =
          a :: s2.reverse by simp, List.dropWhile_cons, if_pos ha, ih]
      simp [lastNonWs, List.filter_append, ha]
    · rw [Bool.not_eq_true] at ha
      rw [List.reverse_append, show ([a] : List Char).reverse ++ s2.reverse =
          a :: s2.reverse by simp, List.dropWhile_cons, if_neg (by simp [ha])]
      simp [lastNonWs, List.filter_append, ha, List.getLast?_concat]

/-- Dropping leading whitespace does not change the non-whitespace
characters. -/
theorem filter_dropWhile_ws (s : List Char) :
    (s.dropWhile isWsChar).filter (fun c => !isWsChar c) =
      s.filter (fun c => !isWsChar c) := by
  conv_rhs => rw [← List.takeWhile_append_dropWhile (p := isWsChar) (l := s)]
  rw [List.filter_append]
  have hnil : (s.takeWhile isWsChar).filter (fun c => !isWsChar c) = [] := by
    rw [List.filter_eq_nil_iff]
    intro a ha
    simp [List.mem_takeWhile_imp ha]
  rw [hnil, List.nil_append]

/-- The last character of the trimmed string is the last non-whitespace
character of the original. -/
theorem getLast_trimChars (s : List Char) : (trimChars s).getLast? = lastNonWs s := by
  unfold trimChars
  rw [List.getLast?_reverse, head_dropWhile_ws_reverse (s.dropWhile isWsChar)]
  simp [lastNonWs, filter_dropWhile_ws]

/-! ## Stage preservation of a terminal ending -/

/-- A terminal-respecting scan preserves a terminal last non-whitespace
character. -/
theorem runScanStr_term (m : Matcher)
    (h1 : ∀ pos prev s n repl chs, m pos prev s = some (n + 1, repl, chs) →
      ∀ c ∈ s.take (n + 1), isTermChar c = false)
    (h2 : ∀ pos prev s n repl chs, (∀ c ∈ s, isWsChar c = true) →
      m pos prev s = some (n + 1, repl, chs) → False)
    {s : List Char} {t : Char} (ht : isTermChar t = true)
    (h : lastNonWs s = some t) : lastNonWs (runScanStr m s) = some t := by
  rcases lastNonWs_decomp h with ⟨u, v, rfl, hv⟩
  rcases gscanF_term_suffix m h1 h2 (u ++ t :: v).length 0 none u t v ht hv with ⟨w, hw⟩
  show lastNonWs ((gscanF m (u ++ t :: v).length 0 none (u ++ t :: v)).1) = some t
  rw [hw]
  exact lastNonWs_recomp (term_not_ws ht) w v hv

/-- A non-whitespace-preserving scan preserves the last non-whitespace
character. -/
theorem runScanStr_filter (m : Matcher)
    (h3 : ∀ pos prev s n repl chs, m pos prev s = some (n + 1, repl, chs) →
      repl.filter (fun c => !isWsChar c) =
        (s.take (n + 1)).filter (fun c => !isWsChar c))
    (s : List Char) : lastNonWs (runScanStr m s) = lastNonWs s := by
  show ((gscanF m s.length 0 none s).1.filter (fun c => !isWsChar c)).getLast? = _
  rw [gscanF_filter_nonWs m h3 s.length 0 none s]
  rfl

/-- `fixCommonArtifacts` preserves a terminal last non-whitespace
character: the word replacements and the repeated-word collapse satisfy
the terminal-suffix conditions, and the two spacing fixes only delete
whitespace. -/
theorem fixCommonArtifacts_term {s : List Char} {t : Char}
    (ht : isTermChar t = true) (h : lastNonWs s = some t) :
    lastNonWs (fixCommonArtifacts s) = some t := by
  have s1 := runScanStr_term (wordReplaceMatcher "gonna".toList "going to".toList)
    (wordReplaceMatcher_no_term _ _ (by decide))
    (wordReplaceMatcher_no_ws_match 'g' "onna".toList "going to".toList (by decide))
    ht h
  have s2 := runScanStr_term (wordReplaceMatcher "wanna".toList "want to".toList)
    (wordReplaceMatcher_no_term _ _ (by decide))
    (wordReplaceMatcher_no_ws_match 'w' "anna".toList "want to".toList (by decide))
    ht s1
  have s3 := runScanStr_term (wordReplaceMatcher "gotta".toList "got to".toList)
    (wordReplaceMatcher_no_term _ _ (by decide))
    (wordReplaceMatcher_no_ws_match 'g' "otta".toList "got to".toList (by decide))
    ht s2
  have s4 := runScanStr_term repeatedWordMatcher repeatedWordMatcher_no_term
    repeatedWordMatcher_no_ws_match ht s3
  show lastNonWs (runScanStr punctWsMatcher (runScanStr wsBeforePunctMatcher _)) = some t
  rw [runScanStr_filter punctWsMatcher punctWsMatcher_filter,
    runScanStr_filter wsBeforePunctMatcher wsBeforePunctMatcher_filter]
  exact s4

/-! ## Claim C6: terminal punctuation -/

/-- A true `endsTermAfterTrim` test names a terminal last character of
the trimmed string. -/
theorem endsTermAfterTrim_spec {s : List Char} (h : endsTermAfterTrim s = true) :
    ∃ c, (trimChars s).getLast? = some c ∧ isTermChar c = true := by
  unfold endsTermAfterTrim at h
  rcases hL : (trimChars s).getLast? with _ | c
  · rw [hL] at h
    exact absurd h (by simp)
  · rw [hL] at h
    exact ⟨c, rfl, h⟩

/-- Terminal-ending property of the pipeline tail (steps 7 and 8) over a
generic step-6 result: the trimmed artifact-fixed step-7 output ends in a
terminal character, and when the step-6 result does not already end in
one after trimming, step 7 appends a period and records the punctuation
change. -/
theorem stage7_fix_terminal (s6 : List Char) (hs6 : s6 ≠ []) :
    (∃ c, (trimChars (fixCommonArtifacts (stage7 s6).1)).getLast? = some c ∧
      isTermChar c = true) ∧
    (endsTermAfterTrim s6 = false →
      (stage7 s6).1 = trimChars s6 ++ ['.'] ∧
      (stage7 s6).2 = [⟨ChangeType.punctuation, "Added ending period", s6.length⟩]) := by
  have hterm : ∃ tc, isTermChar tc = true ∧ lastNonWs (stage7 s6).1 = some tc := by
    cases hE : endsTermAfterTrim s6 with
    | false =>
      have hcond : (decide (0 < s6.length) && !endsTermAfterTrim s6) = true := by
        simp [hE, List.length_pos.mpr hs6]
      have h7 : (stage7 s6).1 = trimChars s6 ++ ['.'] := by
        simp [stage7, hcond]
      refine ⟨'.', by decide, ?_⟩
      rw [h7]
      exact lastNonWs_recomp (by decide) (trimChars s6) [] (by simp)
    | true =>
      have h7 : (stage7 s6).1 = s6 := by
        simp [stage7, hE]
      rcases endsTermAfterTrim_spec hE with ⟨tc, hL, htc⟩
      refine ⟨tc, htc, ?_⟩
      rw [h7, ← getLast_trimChars, hL]
  rcases hterm with ⟨tc, htc, hlast⟩
  have hfix := fixCommonArtifacts_term htc hlast
  constructor
  · refine ⟨tc, ?_, htc⟩
    rw [getLast_trimChars]
    exact hfix
  · intro hE
    have hcond : (decide (0 < s6.length) && !endsTermAfterTrim s6) = true := by
      simp [hE, List.length_pos.mpr hs6]
    constructor
    · simp [stage7, hcond]
    · simp [stage7, hcond]

set_option maxHeartbeats 1600000 in
/-- Claim C6: for every input whose corrected output is non-empty, the
corrected string ends in `.`, `!` or `?`; and when the intermediate
result after step 6 does not already end in one of these after trimming,
step 7 appends a `.` (the result becomes the trimmed intermediate plus a
period) and a punctuation Change is recorded. -/
theorem applyCorrections_terminal_punctuation (text : String) (sim : List ℚ)
    (h : (applyCorrections text sim).corrected ≠ "") :
    (∃ c, (applyCorrections text sim).corrected.data.getLast? = some c ∧
      isTermChar c = true) ∧
    (endsTermAfterTrim (resultAfterStep6 text).1 = false →
      (stage7 (resultAfterStep6 text).1).1 =
        trimChars (resultAfterStep6 text).1 ++ ['.'] ∧
      Change.mk ChangeType.punctuation "Added ending period"
          (resultAfterStep6 text).1.length ∈ (applyCorrections text sim).changes) := by
  have hcorr : (applyCorrections text sim).corrected =
      String.mk (trimChars (fixCommonArtifacts (stage7 (resultAfterStep6 text).1).1)) := rfl
  have hcorrdata : (applyCorrections text sim).corrected.data =
      trimChars (fixCommonArtifacts (stage7 (resultAfterStep6 text).1).1) := by
    rw [hcorr]
  have hchanges : (applyCorrections text sim).changes =
      (resultAfterStep6 text).2 ++ (stage7 (resultAfterStep6 text).1).2 := rfl
  have hs6 : (resultAfterStep6 text).1 ≠ [] := by
    intro h0
    apply h
    show String.mk (trimChars (fixCommonArtifacts (stage7 (resultAfterStep6 text).1).1)) = ""
    rw [h0]
    rfl
  obtain ⟨⟨c, hc1, hc2⟩, hpart2⟩ := stage7_fix_terminal (resultAfterStep6 text).1 hs6
  constructor
  · refine ⟨c, ?_, hc2⟩
    rw [hcorrdata]
    exact hc1
  · intro hE
    obtain ⟨h71, h72⟩ := hpart2 hE
    refine ⟨h71, ?_⟩
    rw [hchanges, h72]
    exact List.mem_append_right _ (List.mem_singleton.mpr rfl)

/-- Witness for claim C6 at the concrete input `"hi"`, whose corrected
output is `"Hi."`. -/
theorem applyCorrections_terminal_punctuation_witness :
    (applyCorrections "hi" []).corrected ≠ "" ∧
    (∃ c, (applyCorrections "hi" []).corrected.data.getLast? = some c ∧
      isTermChar c = true) ∧
    Change.mk ChangeType.punctuation "Added ending period" 2 ∈
      (applyCorrections "hi" []).changes := by
  have h := applyCorrections_terminal_punctuation "hi" [] (by decide)
  refine ⟨by decide, h.1, ?_⟩
  exact (h.2 (by decide)).2

/-! ## Claim C4 (amended): capitalize-after-period changes carry position 0 -/

/-- A filler-removal description is never the capitalize-after-period
description. -/
theorem fillerDesc_ne (l : List Char) : fillerDesc l ≠ "Capitalized after period" := by
  intro h
  unfold fillerDesc at h
  have hA : ("Removed filler: \"".toList ++ trimChars l ++ "\"".toList : List Char) =
      "Capitalized after period".data := congrArg String.data h
  rw [show ("Removed filler: \"".toList : List Char) =
      'R' :: "emoved filler: \"".toList from rfl,
    show ("Capitalized after period".data : List Char) =
      'C' :: "apitalized after period".data from rfl] at hA
  simp [List.cons_append] at hA

/-- A boundary-trigger description is never the capitalize-after-period
description. -/
theorem triggerDesc_ne (w : List Char) :
    String.mk ("Added period before \"".toList ++ w ++ "\"".toList) ≠
      "Capitalized after period" := by
  intro h
  have hA : ("Added period before \"".toList ++ w ++ "\"".toList : List Char) =
      "Capitalized after period".data := congrArg String.data h
  rw [show ("Added period before \"".toList : List Char) =
      'A' :: "dded period before \"".toList from rfl,
    show ("Capitalized after period".data : List Char) =
      'C' :: "apitalized after period".data from rfl] at hA
  simp [List.cons_append] at hA

/-- Filler matchers only emit filler changes. -/
theorem mkFillerMatcher_capPosZero (body : List Char → Option Nat) :
    ∀ pos prev s n repl chs, mkFillerMatcher body pos prev s = some (n + 1, repl, chs) →
      ∀ ch ∈ chs, capPosZero ch := by
  intro pos prev s n repl chs heq ch hch
  unfold mkFillerMatcher at heq
  split at heq
  · split at heq
    · rename_i n0 hbody
      simp only [Option.some.injEq, Prod.mk.injEq] at heq
      obtain ⟨-, -, hchs⟩ := heq
      rw [← hchs] at hch
      rw [List.mem_singleton.mp hch]
      intro hdesc
      exact absurd hdesc (fillerDesc_ne _)
    · exact absurd heq (by simp)
  · exact absurd heq (by simp)

/-- The whitespace-collapse matcher only emits spacing changes. -/
theorem multiSpaceMatcher_capPosZero :
    ∀ pos prev s n repl chs, multiSpaceMatcher pos prev s = some (n + 1, repl, chs) →
      ∀ ch ∈ chs, capPosZero ch := by
  intro pos prev s n repl chs heq ch hch
  simp only [multiSpaceMatcher] at heq
  split at heq
  · simp only [Option.some.injEq, Prod.mk.injEq] at heq
    obtain ⟨-, -, hchs⟩ := heq
    rw [← hchs] at hch
    rw [List.mem_singleton.mp hch]
    intro hdesc
    simp at hdesc
  · exact absurd heq (by simp)

/-- Trigger matchers only emit boundary changes. -/
theorem triggerMatcher_capPosZero (trig : List Char) :
    ∀ pos prev s n repl chs, triggerMatcher trig pos prev s = some (n + 1, repl, chs) →
      ∀ ch ∈ chs, capPosZero ch := by
  intro pos prev s n repl chs heq ch hch
  simp only [triggerMatcher] at heq
  split at heq
  · split at heq
    · split at heq
      · split at heq
        · split at heq
          · split at heq
            · simp only [Option.some.injEq, Prod.mk.injEq] at heq
              obtain ⟨-, -, hchs⟩ := heq
              rw [← hchs] at hch
              rw [List.mem_singleton.mp hch]
              intro hdesc
              exact absurd hdesc (triggerDesc_ne _)
            · simp only [Option.some.injEq, Prod.mk.injEq] at heq
              obtain ⟨-, -, hchs⟩ := heq
              rw [← hchs] at hch
              simp at hch
          · simp only [Option.some.injEq, Prod.mk.injEq] at heq
            obtain ⟨-, -, hchs⟩ := heq
            rw [← hchs] at hch
            simp at hch
        · exact absurd heq (by simp)
      · exact absurd heq (by simp)
    · exact absurd heq (by simp)
  · exact absurd heq (by simp)

/-- The advisory long-segment changes are boundary changes. -/
theorem longSegmentChanges_capPosZero (s : List Char) :
    ∀ ch ∈ longSegmentChanges s, capPosZero ch := by
  intro ch hch
  unfold longSegmentChanges at hch
  rcases List.mem_filterMap.mp hch with ⟨p, -, hpe⟩
  split at hpe
  · rw [Option.some.inj hpe.symm]
    intro hdesc
    simp at hdesc
  · exact absurd hpe (by simp)

/-- The capitalize-after-period matcher records position 0 (the stale
`position` variable of the source). -/
theorem periodCaseMatcher_capPosZero :
    ∀ pos prev s n repl chs, periodCaseMatcher pos prev s = some (n + 1, repl, chs) →
      ∀ ch ∈ chs, capPosZero ch := by
  intro pos prev s n repl chs heq ch hch
  simp only [periodCaseMatcher] at heq
  split at heq
  · split at heq
    · split at heq
      · split at heq
        · simp only [Option.some.injEq, Prod.mk.injEq] at heq
          obtain ⟨-, -, hchs⟩ := heq
          rw [← hchs] at hch
          rw [List.mem_singleton.mp hch]
          intro _
          rfl
        · exact absurd heq (by simp)
      · exact absurd heq (by simp)
    · exact absurd heq (by simp)
  · exact absurd heq (by simp)

/-- The standalone-pronoun matcher records no changes. -/
theorem pronounIMatcher_capPosZero :
    ∀ pos prev s n repl chs, pronounIMatcher pos prev s = some (n + 1, repl, chs) →
      ∀ ch ∈ chs, capPosZero ch := by
  intro pos prev s n repl chs heq ch hch
  simp only [pronounIMatcher] at heq
  split at heq
  · split at heq
    · simp only [Option.some.injEq, Prod.mk.injEq] at heq
      obtain ⟨-, -, hchs⟩ := heq
      rw [← hchs] at hch
      simp at hch
    · exact absurd heq (by simp)
  · exact absurd heq (by simp)

/-- Lifting a matcher change property through one stage. -/
theorem runStage_capPosZero (m : Matcher)
    (hm : ∀ pos prev s n repl chs, m pos prev s = some (n + 1, repl, chs) →
      ∀ ch ∈ chs, capPosZero ch)
    (acc : List Char × List Change) (hacc : ∀ ch ∈ acc.2, capPosZero ch) :
    ∀ ch ∈ (runStage m acc).2, capPosZero ch := by
  intro ch hch
  have hch2 : ch ∈ acc.2 ++ (gscanF m acc.1.length 0 none acc.1).2 := hch
  rcases List.mem_append.mp hch2 with h | h
  · exact hacc ch h
  · exact gscanF_changes_prop m capPosZero hm _ _ _ _ ch h

/-- Lifting a matcher change property through a fold of stages. -/
theorem foldl_runStage_capPosZero {α : Type} (f : α → Matcher) :
    ∀ L : List α, (∀ a ∈ L, ∀ pos prev s n repl chs,
        f a pos prev s = some (n + 1, repl, chs) → ∀ ch ∈ chs, capPosZero ch) →
      ∀ acc : List Char × List Change, (∀ ch ∈ acc.2, capPosZero ch) →
        ∀ ch ∈ (L.foldl (fun acc a => runStage (f a) acc) acc).2, capPosZero ch := by
  intro L
  induction L with
  | nil =>
    intro _ acc hacc ch hch
    rw [List.foldl_nil] at hch
    exact hacc ch hch
  | cons a L ih =>
    intro hL acc hacc ch hch
    rw [List.foldl_cons] at hch
    exact ih (fun x hx => hL x (List.mem_cons_of_mem a hx)) (runStage (f a) acc)
      (runStage_capPosZero (f a) (hL a (List.mem_cons_self a L)) acc hacc) ch hch

/-- Step 5 emits a position-0 change. -/
theorem stage5_capPosZero (acc : List Char × List Change)
    (hacc : ∀ ch ∈ acc.2, capPosZero ch) : ∀ ch ∈ (stage5 acc).2, capPosZero ch := by
  intro ch hch
  unfold stage5 at hch
  split at hch
  · split at hch
    · rcases List.mem_append.mp hch with h | h
      · exact hacc ch h
      · rw [List.mem_singleton.mp h]
        intro _
        rfl
    · exact hacc ch hch
  · exact hacc ch hch

/-- Step 7 emits the ending-period punctuation change. -/
theorem stage7_capPosZero (s : List Char) : ∀ ch ∈ (stage7 s).2, capPosZero ch := by
  intro ch hch
  unfold stage7 at hch
  split at hch
  · rw [List.mem_singleton.mp hch]
    intro hdesc
    simp at hdesc
  · simp at hch

set_option maxHeartbeats 1600000 in
/-- Claim C4 (amended): every Change recorded by `applyCorrections` with
the capitalize-after-period description carries position 0 — the
source's `position` variable is initialised to 0 and never updated, so
these positions are not the offsets at which the corrections applied. -/
theorem capitalize_after_period_position_zero (text : String) (sim : List ℚ) :
    ∀ ch ∈ (applyCorrections text sim).changes,
      ch.description = "Capitalized after period" → ch.position = 0 := by
  have h1 : ∀ ch ∈ (resultAfterStep1 text).2, capPosZero ch := by
    intro ch hch
    refine foldl_runStage_capPosZero (fun mm : Matcher => mm) FILLER_MATCHERS ?_
      (text.toList, []) (by simp) ch hch
    intro mm hmm
    simp only [FILLER_MATCHERS, List.mem_cons, List.not_mem_nil, or_false] at hmm
    rcases hmm with rfl | rfl | rfl | rfl | rfl | rfl | rfl <;>
      exact mkFillerMatcher_capPosZero _
  have h2 : ∀ ch ∈ (resultAfterStep2 text).2, capPosZero ch :=
    runStage_capPosZero multiSpaceMatcher multiSpaceMatcher_capPosZero
      (resultAfterStep1 text) h1
  have h3 : ∀ ch ∈ (resultAfterStep3 text).2, capPosZero ch := by
    intro ch hch
    have hch2 : ch ∈ (BOUNDARY_TRIGGERS.foldl
          (fun acc trig => runStage (triggerMatcher trig) acc) (resultAfterStep2 text)).2 ++
        longSegmentChanges (BOUNDARY_TRIGGERS.foldl
          (fun acc trig => runStage (triggerMatcher trig) acc) (resultAfterStep2 text)).1 :=
      hch
    rcases List.mem_append.mp hch2 with h | h
    · exact foldl_runStage_capPosZero triggerMatcher BOUNDARY_TRIGGERS
        (fun trig _ => triggerMatcher_capPosZero trig) (resultAfterStep2 text) h2 ch h
    · exact longSegmentChanges_capPosZero _ ch h
  have h4 : ∀ ch ∈ (resultAfterStep4 text).2, capPosZero ch :=
    runStage_capPosZero periodCaseMatcher periodCaseMatcher_capPosZero
      (resultAfterStep3 text) h3
  have h5 : ∀ ch ∈ (resultAfterStep5 text).2, capPosZero ch :=
    stage5_capPosZero (resultAfterStep4 text) h4
  have h6 : ∀ ch ∈ (resultAfterStep6 text).2, capPosZero ch :=
    runStage_capPosZero pronounIMatcher pronounIMatcher_capPosZero
      (resultAfterStep5 text) h5
  intro ch hch hdesc
  have hch2 : ch ∈ (resultAfterStep6 text).2 ++ (stage7 (resultAfterStep6 text).1).2 := hch
  rcases List.mem_append.mp hch2 with h | h
  · exact h6 ch h hdesc
  · exact stage7_capPosZero _ ch h hdesc

/-- Witness for the amended claim C4 at the concrete input `"a. b"`,
whose change list contains a capitalize-after-period Change. -/
theorem capitalize_after_period_position_zero_witness :
    Change.mk ChangeType.casing "Capitalized after period" 0 ∈
      (applyCorrections "a. b" []).changes ∧
    (Change.mk ChangeType.casing "Capitalized after period" 0).position = 0 :=
  ⟨by decide, capitalize_after_period_position_zero "a. b" []
    (Change.mk ChangeType.casing "Capitalized after period" 0) (by decide) rfl⟩
